import Mathlib

/-!
Verification of the paginated-list merge/dedup logic of the
`mastra-bug-reproduce` repository.

The verified logic lives in two React hooks:

* `packages/playground/src/domains/observability/hooks/use-traces.tsx`
  (`useTraces`): the `select` callback flattens the accumulated pages of
  spans and deduplicates them by `traceId`; `getNextPageParam` returns
  `lastPageParam + 1` when `lastPage?.pagination?.hasMore` is truthy and
  `undefined` otherwise.
* `packages/playground-ui/src/hooks/use-workflow-runs.ts`
  (`useWorkflowRuns`): the `select` callback flattens the accumulated pages
  of runs and deduplicates them by `runId`; `getNextPageParam` returns
  `undefined` when the last page has fewer than `PER_PAGE` (20) runs and
  `lastPageParam + 1` otherwise.

Records carry many payload fields; only the identifier and one payload
field (the display name) matter to the logic verified here, so records are
embedded with exactly those fields.
-/

namespace Mastra

/-- A trace span record: `traceId` is the identifier the `select` callback
deduplicates on, `name` stands for the payload (display name). -/
structure Span where
  traceId : String
  name : String
deriving Repr, DecidableEq

/-- The `pagination` metadata of a traces response
(`{ page, perPage, total, hasMore }`); `hasMore` is optional at the
`getNextPageParam` boundary (`lastPage?.pagination?.hasMore`). -/
structure PageMeta where
  page : Nat
  perPage : Nat
  total : Nat
  hasMore : Option Bool
deriving Repr, DecidableEq

/-- One fetched page of the traces endpoint: a `spans` sequence (optional,
the `select` callback guards with `page.spans ?? []`) and optional
`pagination` metadata. -/
structure TracesPage where
  spans : Option (List Span)
  pagination : Option PageMeta
deriving Repr, DecidableEq

/-- A workflow run record: `runId` is the identifier the `select` callback
deduplicates on, `workflowName` stands for the payload. -/
structure Run where
  runId : String
  workflowName : String
deriving Repr, DecidableEq

/-- One fetched page of the workflow-runs endpoint: `runs` is non-optional
in its TypeScript type and the `select` callback reads it unguarded. -/
structure RunsPage where
  runs : List Run
deriving Repr, DecidableEq

/-- The stateful `.filter` with the mutable `seen : Set<string>` shared by
both `select` callbacks: walk the flattened record list in order, keep a
record iff its key is not yet in `seen`, adding the key to `seen` as it
goes. -/
def dedupFilter (key : α → String) : List α → List String → List α
  | [], _ => []
  | x :: xs, seen =>
    if key x ∈ seen then dedupFilter key xs seen
    else x :: dedupFilter key xs (key x :: seen)

/-- The `select` callback of `useTraces` (use-traces.tsx lines 49–58):
`data.pages.flatMap(page => page.spans ?? []).filter(dedup by traceId)`. -/
def selectTraces (pages : List TracesPage) : List Span :=
  dedupFilter Span.traceId (pages.flatMap fun p => p.spans.getD []) []

/-- The `select` callback of `useWorkflowRuns` (use-workflow-runs.ts lines 23–30):
`data.pages.flatMap(page => page.runs).filter(dedup by runId)`. -/
def selectRuns (pages : List RunsPage) : List Run :=
  dedupFilter Run.runId (pages.flatMap fun p => p.runs) []

/-- The `getNextPageParam` callback of `useTraces` (use-traces.tsx lines 43–48):
`if (lastPage?.pagination?.hasMore) return lastPageParam + 1; return
undefined`. The optional chaining and the truthiness test are modelled by
the nested `Option` matches. -/
def getNextPageParamTraces (lastPage : Option TracesPage) (lastPageParam : Nat) :
    Option Nat :=
  match lastPage with
  | none => none
  | some p =>
    match p.pagination with
    | none => none
    | some meta =>
      match meta.hasMore with
      | some true => some (lastPageParam + 1)
      | _ => none

/-- The `PER_PAGE` constant of use-workflow-runs.ts. -/
def PER_PAGE : Nat := 20

/-- The `getNextPageParam` callback of `useWorkflowRuns` (use-workflow-runs.ts lines
16–22): `if (lastPage.runs.length < PER_PAGE) return undefined; return
lastPageParam + 1`. -/
def getNextPageParamRuns (lastPage : RunsPage) (lastPageParam : Nat) : Option Nat :=
  if lastPage.runs.length < PER_PAGE then none
  else some (lastPageParam + 1)

/-- A workflow-runs page as it may arrive over the wire, where the `runs`
field can be absent (`undefined`) even though the TypeScript type declares
it present. -/
structure RunsPageJS where
  runs : Option (List Run)
deriving Repr, DecidableEq

/-- JavaScript semantics of `data.pages.flatMap(page => page.runs)` when a
the `runs` field of a page may be `undefined`: `flatMap` spreads an array result but
keeps a non-array result (here `undefined`, i.e. `none`) as a single
element of the output. -/
def flattenRunsJS (pages : List RunsPageJS) : List (Option Run) :=
  pages.flatMap fun p =>
    match p.runs with
    | some rs => rs.map some
    | none => [none]

/-- JavaScript semantics of the dedup `.filter` of `useWorkflowRuns` when
the flattened list may contain `undefined`: evaluating `run.runId` on
`undefined` throws a `TypeError`, modelled as `Except.error ()`. -/
def dedupFilterJS : List (Option Run) → List String → Except Unit (List Run)
  | [], _ => .ok []
  | none :: _, _ => .error ()
  | some r :: xs, seen =>
    if r.runId ∈ seen then dedupFilterJS xs seen
    else (dedupFilterJS xs (r.runId :: seen)).map (fun l => r :: l)

/-- JavaScript semantics of the whole `select` of `useWorkflowRuns` on
pages whose `runs` field may be absent: flatten, then dedup-filter; the
filter throws on any `undefined` element. -/
def selectRunsJS (pages : List RunsPageJS) : Except Unit (List Run) :=
  dedupFilterJS (flattenRunsJS pages) []

/-- Modelled from the spec: the Page Accumulator of §4.2 is the infinite-
query pagination engine (library code, not under src/). Its state is the
Accumulated Page Set, keyed by page index with at most one live Page per
index. `recordFetch` is the policy requirement of the spec for a completed
fetch of index `idx`: it *replaces* the retained entry for `idx` when one
exists (a periodic refresh supersedes the earlier fetch of the same
index) and appends a new entry otherwise. -/
def recordFetch (st : List (Nat × TracesPage)) (idx : Nat) (pg : TracesPage) :
    List (Nat × TracesPage) :=
  if st.any fun e => e.fst == idx then
    st.map fun e => if e.fst == idx then (idx, pg) else e
  else st ++ [(idx, pg)]

/-- Modelled from the spec: the sequence of live Pages of the Accumulated
Page Set, in retention order, as handed to the Merge/Dedup Projector. -/
def livePages (st : List (Nat × TracesPage)) : List TracesPage :=
  st.map Prod.snd

/-- The description the spec gives of the Merge/Dedup Projector (§4.3), written
independently of the source: fold over the flattened record list, keeping
a record iff no record with the same key has been kept already. Used to
state the refinement claim that both `select` callbacks keep exactly the
first occurrence of each identifier in flattening order. -/
def keepFirstOccurrences (key : α → String) (l : List α) : List α :=
  l.foldl (fun acc x => if acc.any fun y => key y == key x then acc else acc ++ [x]) []

/-- The set of keys already consumed after the dedup filter has walked `l`
starting from `seen`. -/
def seenAfter (key : α → String) : List α → List String → List String
  | [], seen => seen
  | x :: xs, seen =>
    if key x ∈ seen then seenAfter key xs seen
    else seenAfter key xs (key x :: seen)

/-- The dedup filter only drops elements: its output is a sublist of its
input. -/
theorem dedupFilter_sublist (key : α → String) (l : List α) :
    ∀ seen : List String, (dedupFilter key l seen).Sublist l := by
  induction l with
  | nil => intro seen; simp [dedupFilter]
  | cons x xs ih =>
    intro seen
    simp only [dedupFilter]
    by_cases h : key x ∈ seen
    · rw [if_pos h]; exact (ih seen).cons x
    · rw [if_neg h]; exact (ih _).cons₂ x

/-- Keys of records kept by the dedup filter were not in the initial
`seen` set. -/
theorem dedupFilter_key_not_seen (key : α → String) (l : List α) :
    ∀ (seen : List String) (k : String),
      k ∈ (dedupFilter key l seen).map key → k ∉ seen := by
  induction l with
  | nil => intro seen k h; simp [dedupFilter] at h
  | cons x xs ih =>
    intro seen k h
    simp only [dedupFilter] at h
    by_cases hx : key x ∈ seen
    · rw [if_pos hx] at h
      exact ih seen k h
    · rw [if_neg hx] at h
      simp only [List.map_cons, List.mem_cons] at h
      rcases h with h | h
      · subst h; exact hx
      · intro hk
        exact ih _ k h (List.mem_cons_of_mem _ hk)

/-- The keys of the dedup filter output are pairwise distinct. -/
theorem dedupFilter_keys_nodup (key : α → String) (l : List α) :
    ∀ seen : List String, ((dedupFilter key l seen).map key).Nodup := by
  induction l with
  | nil => intro seen; simp [dedupFilter]
  | cons x xs ih =>
    intro seen
    simp only [dedupFilter]
    by_cases hx : key x ∈ seen
    · rw [if_pos hx]; exact ih seen
    · rw [if_neg hx]
      simp only [List.map_cons, List.nodup_cons]
      exact ⟨fun hmem => dedupFilter_key_not_seen key xs _ _ hmem
        (List.mem_cons_self _ _), ih _⟩

/-- Membership in the consumed-keys set after walking `l`. -/
theorem mem_seenAfter (key : α → String) (l : List α) :
    ∀ (seen : List String) (k : String),
      k ∈ seenAfter key l seen ↔ k ∈ seen ∨ k ∈ l.map key := by
  induction l with
  | nil => intro seen k; simp [seenAfter]
  | cons x xs ih =>
    intro seen k
    simp only [seenAfter, List.map_cons, List.mem_cons]
    by_cases hx : key x ∈ seen
    · rw [if_pos hx, ih]
      constructor
      · rintro (h | h)
        · exact Or.inl h
        · exact Or.inr (Or.inr h)
      · rintro (h | h | h)
        · exact Or.inl h
        · exact Or.inl (h ▸ hx)
        · exact Or.inr h
    · rw [if_neg hx, ih]
      simp only [List.mem_cons]
      tauto

/-- The dedup filter distributes over append, threading the consumed-keys
set through the left part. -/
theorem dedupFilter_append (key : α → String) (l1 l2 : List α) :
    ∀ seen, dedupFilter key (l1 ++ l2) seen =
      dedupFilter key l1 seen ++ dedupFilter key l2 (seenAfter key l1 seen) := by
  induction l1 with
  | nil => intro seen; simp [dedupFilter, seenAfter]
  | cons x xs ih =>
    intro seen
    simp only [List.cons_append, dedupFilter, seenAfter, List.append_eq]
    by_cases hx : key x ∈ seen
    · simp [hx, ih]
    · simp [hx, ih]

/-- A list all of whose keys are already consumed is filtered away
entirely. -/
theorem dedupFilter_eq_nil_of_all_seen (key : α → String) (l : List α) :
    ∀ seen, (∀ x ∈ l, key x ∈ seen) → dedupFilter key l seen = [] := by
  induction l with
  | nil => intro seen _; simp [dedupFilter]
  | cons x xs ih =>
    intro seen h
    have hx : key x ∈ seen := h x (List.mem_cons_self _ _)
    simp only [dedupFilter, if_pos hx]
    exact ih seen fun y hy => h y (List.mem_cons_of_mem _ hy)

/-- A list with pairwise-distinct keys, none already consumed, passes the
dedup filter unchanged. -/
theorem dedupFilter_eq_self (key : α → String) (l : List α) :
    ∀ seen, (l.map key).Nodup → (∀ x ∈ l, key x ∉ seen) →
      dedupFilter key l seen = l := by
  induction l with
  | nil => intro seen _ _; simp [dedupFilter]
  | cons x xs ih =>
    intro seen hnd hs
    have hx : key x ∉ seen := hs x (List.mem_cons_self _ _)
    simp only [List.map_cons, List.nodup_cons] at hnd
    simp only [dedupFilter, if_neg hx]
    congr 1
    apply ih _ hnd.2
    intro y hy
    simp only [List.mem_cons]
    rintro (h | h)
    · exact hnd.1 (h ▸ List.mem_map_of_mem key hy)
    · exact hs y (List.mem_cons_of_mem _ hy) h

/-- A list with pairwise-distinct keys has at most one element of any
given key. -/
theorem length_filter_key_le_one {κ : Type} [DecidableEq κ] (key : α → κ)
    (l : List α) (k : κ) :
    (l.map key).Nodup → (l.filter fun x => key x == k).length ≤ 1 := by
  induction l with
  | nil => intro _; simp
  | cons x xs ih =>
    intro h
    simp only [List.map_cons, List.nodup_cons] at h
    by_cases hx : key x = k
    · have hnil : xs.filter (fun y => key y == k) = [] := by
        rw [List.filter_eq_nil_iff]
        intro y hy
        simp only [beq_iff_eq]
        intro hk
        exact h.1 (hx ▸ hk ▸ List.mem_map_of_mem key hy)
      simp [List.filter_cons, hx, hnil]
    · simp only [List.filter_cons, beq_iff_eq, hx, if_false]
      exact ih h.2

/-- Given a key absent from `seen` whose first occurrence in `l` is `r`,
the dedup filter keeps exactly `r` among the records of that key. -/
theorem dedupFilter_filter_eq_find (key : α → String) (l : List α) :
    ∀ (seen : List String) (k : String) (r : α), k ∉ seen →
      l.find? (fun x => key x == k) = some r →
      (dedupFilter key l seen).filter (fun x => key x == k) = [r] := by
  induction l with
  | nil => intro seen k r _ hf; simp at hf
  | cons x xs ih =>
    intro seen k r hks hf
    by_cases hxk : key x = k
    · rw [List.find?_cons_of_pos _ (by simp [hxk])] at hf
      have hrx : x = r := by simpa using hf
      subst hrx
      have hxseen : key x ∉ seen := by rw [hxk]; exact hks
      simp only [dedupFilter, if_neg hxseen]
      rw [List.filter_cons_of_pos (by simp [hxk])]
      have hnil :
          (dedupFilter key xs (key x :: seen)).filter (fun y => key y == k) = [] := by
        rw [List.filter_eq_nil_iff]
        intro y hy
        simp only [beq_iff_eq]
        intro hk
        exact dedupFilter_key_not_seen key xs (key x :: seen) (key y)
          (List.mem_map_of_mem key hy) (by simp [hk, hxk])
      rw [hnil]
    · rw [List.find?_cons_of_neg _ (by simp [hxk])] at hf
      simp only [dedupFilter]
      by_cases hxs : key x ∈ seen
      · rw [if_pos hxs]
        exact ih seen k r hks hf
      · rw [if_neg hxs]
        rw [List.filter_cons_of_neg (by simp [hxk])]
        apply ih _ k r _ hf
        simp only [List.mem_cons]
        rintro (h | h)
        · exact hxk h.symm
        · exact hks h

/-- The dedup filter is the fold the spec describes, relative to an
accumulator whose keys are exactly the consumed keys. -/
theorem dedupFilter_eq_foldl (key : α → String) (l : List α) :
    ∀ (seen : List String) (acc : List α),
      (∀ k : String, k ∈ seen ↔ ∃ y ∈ acc, key y = k) →
      acc ++ dedupFilter key l seen =
        l.foldl (fun a x => if a.any fun y => key y == key x then a else a ++ [x]) acc := by
  induction l with
  | nil => intro seen acc _; simp [dedupFilter]
  | cons x xs ih =>
    intro seen acc hinv
    simp only [dedupFilter, List.foldl_cons]
    by_cases hx : key x ∈ seen
    · have hany : (acc.any fun y => key y == key x) = true := by
        rcases (hinv (key x)).1 hx with ⟨y, hy, hky⟩
        exact List.any_eq_true.2 ⟨y, hy, by simp [hky]⟩
      rw [if_pos hx, if_pos hany]
      exact ih seen acc hinv
    · have hany : (acc.any fun y => key y == key x) = false := by
        rw [List.any_eq_false]
        intro y hy
        simp only [beq_iff_eq]
        intro hky
        exact hx ((hinv (key x)).2 ⟨y, hy, hky⟩)
      have hany2 : ¬((acc.any fun y => key y == key x) = true) := by
        simp [hany]
      rw [if_neg hx, if_neg hany2]
      rw [show acc ++ x :: dedupFilter key xs (key x :: seen)
            = (acc ++ [x]) ++ dedupFilter key xs (key x :: seen) by simp]
      apply ih
      intro k
      simp only [List.mem_cons, List.mem_append, List.mem_singleton,
        List.not_mem_nil, or_false]
      constructor
      · rintro (h | h)
        · exact ⟨x, Or.inr rfl, h.symm⟩
        · rcases (hinv k).1 h with ⟨y, hy, hky⟩
          exact ⟨y, Or.inl hy, hky⟩
      · rintro ⟨y, hy | hy, hky⟩
        · exact Or.inr ((hinv k).2 ⟨y, hy, hky⟩)
        · subst hy; exact Or.inl hky.symm

/-- Specialization: starting from nothing consumed, the dedup filter is
exactly the keep-first-occurrence fold of the spec. -/
theorem dedupFilter_eq_keepFirstOccurrences (key : α → String) (l : List α) :
    dedupFilter key l [] = keepFirstOccurrences key l := by
  have h := dedupFilter_eq_foldl key l [] [] (by simp)
  simpa [keepFirstOccurrences] using h

/-- The dedup filter is natural in the record type: relabelling records by
a key-preserving map commutes with filtering. -/
theorem dedupFilter_map (key1 : α → String) (key2 : β → String) (φ : α → β)
    (hkey : ∀ a, key2 (φ a) = key1 a) (l : List α) :
    ∀ seen, dedupFilter key2 (l.map φ) seen = (dedupFilter key1 l seen).map φ := by
  induction l with
  | nil => intro seen; simp [dedupFilter]
  | cons x xs ih =>
    intro seen
    simp only [List.map_cons, dedupFilter, hkey]
    by_cases hx : key1 x ∈ seen
    · rw [if_pos hx, if_pos hx]
      exact ih seen
    · rw [if_neg hx, if_neg hx, List.map_cons]
      rw [ih (key1 x :: seen)]

/-- Flattening key-disjoint pages with per-page distinct keys yields a
list with pairwise-distinct keys. -/
theorem nodup_keys_flatMap {κ : Type} (key : α → κ) (f : β → List α) :
    ∀ pages : List β,
      (∀ p ∈ pages, ((f p).map key).Nodup) →
      pages.Pairwise (fun p q => ∀ x ∈ f p, ∀ y ∈ f q, key x ≠ key y) →
      ((pages.flatMap f).map key).Nodup := by
  intro pages
  induction pages with
  | nil => intro _ _; simp
  | cons p ps ih =>
    intro hall hpw
    rw [List.pairwise_cons] at hpw
    simp only [List.flatMap_cons, List.map_append]
    rw [List.nodup_append]
    refine ⟨hall p (List.mem_cons_self _ _),
      ih (fun t ht => hall t (List.mem_cons_of_mem _ ht)) hpw.2, ?_⟩
    intro k hk1 hk2
    simp only [List.mem_map] at hk1
    rcases hk1 with ⟨x, hx, hkx⟩
    simp only [List.mem_map, List.mem_flatMap] at hk2
    rcases hk2 with ⟨y, ⟨t, ht, hyt⟩, hky⟩
    exact hpw.1 t ht x hx y hyt (hkx.trans hky.symm)

/-- The JS dedup filter throws as soon as the flattened list contains an
`undefined` element. -/
theorem dedupFilterJS_error_of_mem_none (l : List (Option Run)) :
    ∀ seen, none ∈ l → dedupFilterJS l seen = .error () := by
  induction l with
  | nil => intro seen h; simp at h
  | cons x xs ih =>
    intro seen hmem
    cases x with
    | none => simp [dedupFilterJS]
    | some r =>
      have hxs : none ∈ xs := by
        rcases List.mem_cons.1 hmem with h | h
        · exact absurd h (by simp)
        · exact h
      simp only [dedupFilterJS]
      by_cases h : r.runId ∈ seen
      · rw [if_pos h]
        exact ih seen hxs
      · rw [if_neg h, ih _ hxs]
        rfl

/-- Sample span `aaa` from the e2e fixture. -/
def spanA : Span := ⟨"aaa", "Agent Run Alpha"⟩

/-- Span carrying the first-seen payload for identifier `aaa`. -/
def spanFirst : Span := ⟨"aaa", "First"⟩

/-- Span carrying a stale payload for the same identifier `aaa`. -/
def spanStale : Span := ⟨"aaa", "Stale"⟩

/-- A concrete page-0 fetch result with spans `[a, b, c]` (`hasMore` false),
as in the refresh-supersedes scenario. -/
def pgABC : TracesPage :=
  ⟨some [⟨"aaa", "Agent Run Alpha"⟩, ⟨"bbb", "Agent Run Bravo"⟩,
         ⟨"ccc", "Agent Run Charlie"⟩],
   some ⟨0, 25, 3, some false⟩⟩

/-- C1: the Accumulated Page Set holds at most one live Page per page
index — `recordFetch` preserves distinctness of page-index keys, every
index has at most one live entry, and after fetch #1 of page 0 returning
`[a,b,c]` followed by a periodic refresh of page 0 returning the same
`[a,b,c]`, page 0 is represented by exactly one live entry and the
Projected List has length 3, not 6. -/
theorem accumulator_replaces_refresh
    (st : List (Nat × TracesPage)) (idx : Nat) (pg : TracesPage) (j : Nat)
    (h : (st.map Prod.fst).Nodup) :
    ((recordFetch st idx pg).map Prod.fst).Nodup
    ∧ ((recordFetch st idx pg).countP fun e => e.fst == j) ≤ 1
    ∧ recordFetch (recordFetch [] 0 pgABC) 0 pgABC = [(0, pgABC)]
    ∧ (selectTraces (livePages (recordFetch (recordFetch [] 0 pgABC) 0 pgABC))).length = 3 := by
  have hkeys : ((recordFetch st idx pg).map Prod.fst).Nodup := by
    unfold recordFetch
    by_cases hany : (st.any fun e => e.fst == idx) = true
    · rw [if_pos hany]
      have heq : (st.map fun e => if e.fst == idx then (idx, pg) else e).map Prod.fst
          = st.map Prod.fst := by
        rw [List.map_map]
        apply List.map_congr_left
        intro e _
        by_cases hc : e.fst = idx
        · simp [Function.comp, hc]
        · simp [Function.comp, hc]
      rw [heq]
      exact h
    · rw [if_neg hany]
      rw [List.map_append]
      simp only [List.map_cons, List.map_nil]
      rw [List.nodup_append]
      refine ⟨h, List.nodup_singleton idx, ?_⟩
      intro a ha hb
      have haidx : a = idx := by simpa using hb
      subst haidx
      rcases List.mem_map.1 ha with ⟨e, he, hfe⟩
      exact hany (List.any_eq_true.2 ⟨e, he, by simp [hfe]⟩)
  refine ⟨hkeys, ?_, by decide, by decide⟩
  rw [List.countP_eq_length_filter]
  exact length_filter_key_le_one Prod.fst _ j hkeys

/-- Witness for C1 at a concrete accumulator state. -/
theorem accumulator_replaces_refresh_witness :
    ((recordFetch [(1, pgABC)] 0 pgABC).map Prod.fst).Nodup
    ∧ ((recordFetch [(1, pgABC)] 0 pgABC).countP fun e => e.fst == 0) ≤ 1
    ∧ recordFetch (recordFetch [] 0 pgABC) 0 pgABC = [(0, pgABC)]
    ∧ (selectTraces (livePages (recordFetch (recordFetch [] 0 pgABC) 0 pgABC))).length = 3 :=
  accumulator_replaces_refresh [(1, pgABC)] 0 pgABC 0 (by decide)

/-- C2: the projected list of either `select` contains no two records with
the same identifier, so looking up an identifier yields at most one
record. -/
theorem projector_no_duplicate_ids
    (tpages : List TracesPage) (rpages : List RunsPage) (tid : String) :
    ((selectTraces tpages).map Span.traceId).Nodup
    ∧ ((selectRuns rpages).map Run.runId).Nodup
    ∧ ((selectTraces tpages).filter fun s => s.traceId == tid).length ≤ 1
    ∧ ((selectRuns rpages).filter fun r => r.runId == tid).length ≤ 1 :=
  ⟨dedupFilter_keys_nodup _ _ _,
   dedupFilter_keys_nodup _ _ _,
   length_filter_key_le_one Span.traceId _ tid (dedupFilter_keys_nodup _ _ _),
   length_filter_key_le_one Run.runId _ tid (dedupFilter_keys_nodup _ _ _)⟩

/-- C8: both `select` projectors are deterministic pure functions —
value-equal retained page sequences give value-equal outputs. -/
theorem projector_deterministic
    (p1 p2 : List TracesPage) (q1 q2 : List RunsPage)
    (hp : p1 = p2) (hq : q1 = q2) :
    selectTraces p1 = selectTraces p2 ∧ selectRuns q1 = selectRuns q2 :=
  ⟨congrArg selectTraces hp, congrArg selectRuns hq⟩

/-- Witness for C8 on concrete value-equal inputs. -/
theorem projector_deterministic_witness :
    selectTraces [pgABC] = selectTraces [pgABC]
    ∧ selectRuns [] = selectRuns [] :=
  projector_deterministic [pgABC] [pgABC] [] [] rfl rfl

/-- C10: the traces `getNextPageParam` is total at the interface boundary:
an absent `lastPage`, an absent `pagination`, and an absent or false
`hasMore` all yield `undefined` rather than an error. -/
theorem traces_next_page_total_at_boundary
    (n : Nat) (pg : TracesPage) (meta : PageMeta) :
    getNextPageParamTraces none n = none
    ∧ (pg.pagination = none → getNextPageParamTraces (some pg) n = none)
    ∧ (pg.pagination = some meta → meta.hasMore = none →
        getNextPageParamTraces (some pg) n = none)
    ∧ (pg.pagination = some meta → meta.hasMore = some false →
        getNextPageParamTraces (some pg) n = none) := by
  refine ⟨rfl, ?_, ?_, ?_⟩
  · intro h
    simp [getNextPageParamTraces, h]
  · intro h1 h2
    simp [getNextPageParamTraces, h1, h2]
  · intro h1 h2
    simp [getNextPageParamTraces, h1, h2]

/-- Witness for C10 at every degenerate boundary input. -/
theorem traces_next_page_total_at_boundary_witness :
    getNextPageParamTraces none 0 = none
    ∧ getNextPageParamTraces (some ⟨none, none⟩) 0 = none
    ∧ getNextPageParamTraces (some ⟨none, some ⟨0, 0, 0, none⟩⟩) 0 = none
    ∧ getNextPageParamTraces (some ⟨none, some ⟨0, 0, 0, some false⟩⟩) 0 = none :=
  ⟨(traces_next_page_total_at_boundary 0 ⟨none, none⟩ ⟨0, 0, 0, none⟩).1,
   (traces_next_page_total_at_boundary 0 ⟨none, none⟩ ⟨0, 0, 0, none⟩).2.1 rfl,
   (traces_next_page_total_at_boundary 0 ⟨none, some ⟨0, 0, 0, none⟩⟩
     ⟨0, 0, 0, none⟩).2.2.1 rfl rfl,
   (traces_next_page_total_at_boundary 0 ⟨none, some ⟨0, 0, 0, some false⟩⟩
     ⟨0, 0, 0, some false⟩).2.2.2 rfl rfl⟩

/-- C3: appending a page whose identifiers all already occur leaves the
traces projection unchanged; projecting `n ≥ 1` copies of a page of
distinct records yields exactly those records; and the output length is
bounded by the number of distinct identifiers in the retained pages. -/
theorem projector_idempotent_refresh
    (pages : List TracesPage) (p pg : TracesPage) (n : Nat) :
    ((∀ s ∈ p.spans.getD [],
        s.traceId ∈ (pages.flatMap fun q => q.spans.getD []).map Span.traceId) →
      selectTraces (pages ++ [p]) = selectTraces pages)
    ∧ (1 ≤ n → ((pg.spans.getD []).map Span.traceId).Nodup →
        selectTraces (List.replicate n pg) = pg.spans.getD [])
    ∧ (selectTraces pages).length ≤
        ((pages.flatMap fun q => q.spans.getD []).map Span.traceId).dedup.length := by
  refine ⟨?_, ?_, ?_⟩
  · intro hsub
    unfold selectTraces
    rw [List.flatMap_append, dedupFilter_append]
    have h2 : dedupFilter Span.traceId ([p].flatMap fun q => q.spans.getD [])
        (seenAfter Span.traceId (pages.flatMap fun q => q.spans.getD []) []) = [] := by
      apply dedupFilter_eq_nil_of_all_seen
      intro x hx
      rw [mem_seenAfter]
      right
      exact hsub x (by simpa using hx)
    rw [h2, List.append_nil]
  · intro hn hnd
    cases n with
    | zero => omega
    | succ m =>
      rw [List.replicate_succ]
      unfold selectTraces
      rw [show ((pg :: List.replicate m pg).flatMap fun q => q.spans.getD [])
            = (pg.spans.getD []) ++
              ((List.replicate m pg).flatMap fun q => q.spans.getD []) by
        simp [List.flatMap_cons]]
      rw [dedupFilter_append]
      rw [dedupFilter_eq_self _ _ _ hnd (fun x _ => List.not_mem_nil _)]
      have h2 : dedupFilter Span.traceId
          ((List.replicate m pg).flatMap fun q => q.spans.getD [])
          (seenAfter Span.traceId (pg.spans.getD []) []) = [] := by
        apply dedupFilter_eq_nil_of_all_seen
        intro x hx
        rw [mem_seenAfter]
        right
        rcases List.mem_flatMap.1 hx with ⟨q, hq, hxq⟩
        rw [List.eq_of_mem_replicate hq] at hxq
        exact List.mem_map_of_mem Span.traceId hxq
      rw [h2, List.append_nil]
  · have hnd : ((selectTraces pages).map Span.traceId).Nodup :=
      dedupFilter_keys_nodup _ _ _
    have hsl : (selectTraces pages).Sublist
        (pages.flatMap fun q => q.spans.getD []) :=
      dedupFilter_sublist _ _ _
    have hsubkeys : ((selectTraces pages).map Span.traceId) ⊆
        (pages.flatMap fun q => q.spans.getD []).map Span.traceId :=
      (hsl.map Span.traceId).subset
    calc (selectTraces pages).length
        = ((selectTraces pages).map Span.traceId).length :=
          (List.length_map _ _).symm
      _ = ((selectTraces pages).map Span.traceId).toFinset.card :=
          (List.toFinset_card_of_nodup hnd).symm
      _ ≤ (((pages.flatMap fun q => q.spans.getD []).map Span.traceId)).toFinset.card := by
          apply Finset.card_le_card
          intro a ha
          rw [List.mem_toFinset] at ha ⊢
          exact hsubkeys ha
      _ = (((pages.flatMap fun q => q.spans.getD []).map Span.traceId)).dedup.length :=
          List.card_toFinset _

/-- Witness for C3: a stable backend page refetched once, and the
concrete 5-record idempotent-refresh bound. -/
theorem projector_idempotent_refresh_witness :
    selectTraces ([pgABC] ++ [(⟨none, none⟩ : TracesPage)]) = selectTraces [pgABC]
    ∧ selectTraces (List.replicate 3 pgABC) = pgABC.spans.getD []
    ∧ (selectTraces [pgABC]).length ≤
        (([pgABC].flatMap fun q => q.spans.getD []).map Span.traceId).dedup.length :=
  ⟨(projector_idempotent_refresh [pgABC] ⟨none, none⟩ pgABC 3).1 (by simp),
   (projector_idempotent_refresh [pgABC] ⟨none, none⟩ pgABC 3).2.1
     (by norm_num) (by decide),
   (projector_idempotent_refresh [pgABC] ⟨none, none⟩ pgABC 3).2.2⟩

/-- C4: when an identifier occurs anywhere in the retained pages, the
projected list contains exactly one record with it, namely its first
occurrence in page order (so the payload from the earliest page is retained). -/
theorem projector_first_seen_wins
    (pages : List TracesPage) (tid : String) (r : Span)
    (hfind : (pages.flatMap fun p => p.spans.getD []).find?
      (fun s => s.traceId == tid) = some r) :
    (selectTraces pages).filter (fun s => s.traceId == tid) = [r]
    ∧ ((selectTraces pages).filter (fun s => s.traceId == tid)).length = 1 := by
  have h : (selectTraces pages).filter (fun s => s.traceId == tid) = [r] :=
    dedupFilter_filter_eq_find Span.traceId _ [] tid r (List.not_mem_nil _) hfind
  exact ⟨h, by rw [h]; rfl⟩

/-- Witness for C4: identifier `aaa` appears in page 0 with name First and
in page 1 with name Stale; the projected record keeps First. -/
theorem projector_first_seen_wins_witness :
    (selectTraces [⟨some [spanFirst], none⟩, ⟨some [spanStale], none⟩]).filter
        (fun s => s.traceId == "aaa") = [spanFirst]
    ∧ ((selectTraces [⟨some [spanFirst], none⟩, ⟨some [spanStale], none⟩]).filter
        (fun s => s.traceId == "aaa")).length = 1 :=
  projector_first_seen_wins _ "aaa" spanFirst (by decide)

/-- C7: a further page is requested exactly when the last page indicated
more data — the traces hook tests `hasMore`, the workflow-runs hook tests
whether the last page is full (`PER_PAGE` runs). -/
theorem next_page_iff_more_data
    (lp : Option TracesPage) (n : Nat) (rp : RunsPage) :
    (getNextPageParamTraces lp n = some (n + 1) ↔
      (lp.bind TracesPage.pagination).bind PageMeta.hasMore = some true)
    ∧ ((lp.bind TracesPage.pagination).bind PageMeta.hasMore ≠ some true →
        getNextPageParamTraces lp n = none)
    ∧ (getNextPageParamRuns rp n = some (n + 1) ↔ PER_PAGE ≤ rp.runs.length)
    ∧ (rp.runs.length < PER_PAGE → getNextPageParamRuns rp n = none) := by
  refine ⟨?_, ?_, ?_, ?_⟩
  · rcases lp with _ | ⟨sp, pag⟩
    · simp [getNextPageParamTraces, Option.bind]
    · rcases pag with _ | ⟨pnum, pper, ptot, hm⟩
      · simp [getNextPageParamTraces, Option.bind]
      · rcases hm with _ | b
        · simp [getNextPageParamTraces, Option.bind]
        · cases b <;> simp [getNextPageParamTraces, Option.bind]
  · intro h
    rcases lp with _ | ⟨sp, pag⟩
    · rfl
    · rcases pag with _ | ⟨pnum, pper, ptot, hm⟩
      · rfl
      · rcases hm with _ | b
        · rfl
        · cases b
          · rfl
          · exact absurd rfl h
  · by_cases h : rp.runs.length < PER_PAGE
    · simp only [getNextPageParamRuns, if_pos h]
      constructor
      · intro hc; exact Option.noConfusion hc
      · intro hc; exact absurd h (Nat.not_lt.2 hc)
    · simp only [getNextPageParamRuns, if_neg h]
      constructor
      · intro _; exact Nat.not_lt.1 h
      · intro _; trivial
  · intro h
    simp only [getNextPageParamRuns, if_pos h]

/-- Witness for C7 at concrete boundary inputs. -/
theorem next_page_iff_more_data_witness :
    getNextPageParamTraces none 0 = none
    ∧ getNextPageParamRuns ⟨[]⟩ 0 = none :=
  ⟨(next_page_iff_more_data none 0 ⟨[]⟩).2.1 (by simp),
   (next_page_iff_more_data none 0 ⟨[]⟩).2.2.2 (by decide)⟩

/-- C5 counterexample: a single page whose span sequence repeats one
identifier has pairwise-disjoint identifier sets (vacuously), yet the
projection is not the concatenation of the page record sequences — the
in-page duplicate is dropped. -/
theorem disjoint_pages_concat_counterexample :
    ([(⟨some [spanA, spanA], none⟩ : TracesPage)].Pairwise fun p q =>
      ∀ x ∈ p.spans.getD [], ∀ y ∈ q.spans.getD [], x.traceId ≠ y.traceId)
    ∧ selectTraces [⟨some [spanA, spanA], none⟩] ≠
        ([(⟨some [spanA, spanA], none⟩ : TracesPage)].flatMap fun p => p.spans.getD []) := by
  exact ⟨List.pairwise_singleton _ _, by decide⟩

/-- C5 (amended): when additionally the identifiers within each page are
pairwise distinct, a sequence of pages with pairwise-disjoint identifier
sets projects to the concatenation of the page record sequences in page
order, records in their original per-page order — in both hooks. -/
theorem disjoint_pages_project_to_concat
    (tpages : List TracesPage) (rpages : List RunsPage)
    (ht1 : ∀ p ∈ tpages, ((p.spans.getD []).map Span.traceId).Nodup)
    (ht2 : tpages.Pairwise fun p q =>
      ∀ x ∈ p.spans.getD [], ∀ y ∈ q.spans.getD [], x.traceId ≠ y.traceId)
    (hr1 : ∀ p ∈ rpages, (p.runs.map Run.runId).Nodup)
    (hr2 : rpages.Pairwise fun p q => ∀ x ∈ p.runs, ∀ y ∈ q.runs, x.runId ≠ y.runId) :
    selectTraces tpages = tpages.flatMap (fun p => p.spans.getD [])
    ∧ selectRuns rpages = rpages.flatMap (fun p => p.runs) := by
  unfold selectTraces selectRuns
  constructor
  · exact dedupFilter_eq_self _ _ _
      (nodup_keys_flatMap Span.traceId _ tpages ht1 ht2)
      (fun x _ => List.not_mem_nil _)
  · exact dedupFilter_eq_self _ _ _
      (nodup_keys_flatMap Run.runId _ rpages hr1 hr2)
      (fun x _ => List.not_mem_nil _)

/-- Witness for the amended C5 on concrete disjoint pages. -/
theorem disjoint_pages_project_to_concat_witness :
    selectTraces [⟨some [spanA], none⟩, ⟨some [⟨"bbb", "Bravo"⟩], none⟩]
      = ([(⟨some [spanA], none⟩ : TracesPage),
          ⟨some [⟨"bbb", "Bravo"⟩], none⟩].flatMap fun p => p.spans.getD [])
    ∧ selectRuns [⟨[⟨"r1", "First"⟩]⟩]
      = ([(⟨[⟨"r1", "First"⟩]⟩ : RunsPage)].flatMap fun p => p.runs) :=
  disjoint_pages_project_to_concat _ _ (by decide) (by decide)
    (by decide) (List.pairwise_singleton _ _)

/-- C6 counterexample: a workflow-runs page whose `runs` field is absent
makes the runs `select` throw (it reads `run.runId` off `undefined`)
rather than contribute nothing. -/
theorem absent_runs_page_throws :
    selectRunsJS [⟨none⟩] = Except.error ()
    ∧ selectRunsJS [⟨none⟩] ≠ Except.ok [] := by
  constructor
  · rfl
  · intro h
    rw [show selectRunsJS [⟨none⟩] = Except.error () from rfl] at h
    exact Except.noConfusion h

/-- C6 (amended): a page with an absent or empty span sequence
contributes nothing to the traces projection and an empty page list
projects to the empty list; in the workflow-runs projection an *empty*
runs sequence contributes nothing, but an *absent* runs sequence (outside
the declared TypeScript type) makes the `select` throw. -/
theorem degenerate_pages_contribute_nothing
    (tpre tpost : List TracesPage) (sp : TracesPage)
    (rpre rpost : List RunsPageJS) (jp : RunsPageJS) :
    ((sp.spans = none ∨ sp.spans = some []) →
      selectTraces (tpre ++ sp :: tpost) = selectTraces (tpre ++ tpost))
    ∧ selectTraces [] = []
    ∧ (jp.runs = some [] →
        selectRunsJS (rpre ++ jp :: rpost) = selectRunsJS (rpre ++ rpost))
    ∧ (jp.runs = none → selectRunsJS (rpre ++ jp :: rpost) = Except.error ()) := by
  refine ⟨?_, rfl, ?_, ?_⟩
  · intro h
    unfold selectTraces
    have heq : ((tpre ++ sp :: tpost).flatMap fun p => p.spans.getD [])
        = ((tpre ++ tpost).flatMap fun p => p.spans.getD []) := by
      rcases h with h | h <;>
        simp [List.flatMap_append, List.flatMap_cons, h]
    rw [heq]
  · intro h
    unfold selectRunsJS
    have heq : flattenRunsJS (rpre ++ jp :: rpost) = flattenRunsJS (rpre ++ rpost) := by
      unfold flattenRunsJS
      simp [List.flatMap_append, List.flatMap_cons, h]
    rw [heq]
  · intro h
    unfold selectRunsJS
    apply dedupFilterJS_error_of_mem_none
    refine List.mem_flatMap.2 ⟨jp, by simp, ?_⟩
    rw [h]
    exact List.mem_singleton.2 rfl

/-- Witness for the amended C6 on concrete degenerate pages. -/
theorem degenerate_pages_contribute_nothing_witness :
    selectTraces [(⟨none, none⟩ : TracesPage)] = selectTraces []
    ∧ selectRunsJS [(⟨some []⟩ : RunsPageJS)] = selectRunsJS []
    ∧ selectRunsJS [(⟨none⟩ : RunsPageJS)] = Except.error () :=
  ⟨(degenerate_pages_contribute_nothing [] [] ⟨none, none⟩ [] [] ⟨some []⟩).1
      (Or.inl rfl),
   (degenerate_pages_contribute_nothing [] [] ⟨none, none⟩ [] [] ⟨some []⟩).2.2.1
      rfl,
   (degenerate_pages_contribute_nothing [] [] ⟨none, none⟩ [] [] ⟨none⟩).2.2.2
      rfl⟩

/-- C9: both `select` callbacks compute the keep-first-occurrence
deduplication of the flattened record list, and they agree up to any
identifier-preserving relabelling of records. -/
theorem selects_compute_same_dedup
    (tpages : List TracesPage) (rpages : List RunsPage) (φ : Span → Run)
    (hall : ∀ p ∈ tpages, p.spans ≠ none)
    (hφ : ∀ s, (φ s).runId = s.traceId) :
    selectTraces tpages =
      keepFirstOccurrences Span.traceId (tpages.flatMap fun p => p.spans.getD [])
    ∧ selectRuns rpages =
      keepFirstOccurrences Run.runId (rpages.flatMap fun p => p.runs)
    ∧ selectRuns (tpages.map fun p => ⟨(p.spans.getD []).map φ⟩) =
      (selectTraces tpages).map φ := by
  refine ⟨dedupFilter_eq_keepFirstOccurrences _ _,
          dedupFilter_eq_keepFirstOccurrences _ _, ?_⟩
  unfold selectRuns selectTraces
  have heq : ((tpages.map fun p =>
        (⟨(p.spans.getD []).map φ⟩ : RunsPage)).flatMap fun p => p.runs)
      = ((tpages.flatMap fun p => p.spans.getD []).map φ) := by
    clear hall
    induction tpages with
    | nil => rfl
    | cons p ps ih =>
      simp only [List.map_cons, List.flatMap_cons, List.map_append, ih]
  rw [heq]
  exact dedupFilter_map Span.traceId Run.runId φ hφ _ []

/-- Witness for C9 with a concrete relabelling. -/
theorem selects_compute_same_dedup_witness :
    selectTraces [(⟨some [spanFirst], none⟩ : TracesPage)] =
      keepFirstOccurrences Span.traceId
        ([(⟨some [spanFirst], none⟩ : TracesPage)].flatMap fun p => p.spans.getD [])
    ∧ selectRuns [] =
      keepFirstOccurrences Run.runId (([] : List RunsPage).flatMap fun p => p.runs)
    ∧ selectRuns ([(⟨some [spanFirst], none⟩ : TracesPage)].map fun p =>
        ⟨(p.spans.getD []).map fun s => (⟨s.traceId, s.name⟩ : Run)⟩) =
      (selectTraces [(⟨some [spanFirst], none⟩ : TracesPage)]).map
        fun s => (⟨s.traceId, s.name⟩ : Run) :=
  selects_compute_same_dedup [⟨some [spanFirst], none⟩] []
    (fun s => ⟨s.traceId, s.name⟩) (by decide) (fun s => rfl)

end Mastra
